import Mathlib

/-!
# Verification of the agit pure-TypeScript fallback repository

This file is a shallow embedding of the pure-TypeScript in-memory fallback
implementation of the agit SDK (`src/ts-sdk/src/client.ts`): the JSON value
model, the `sha256Sync` fallback hash, the recursive `diffValues` structural
diff, and the `PureTsRepository` class with its `commit`, `branch`,
`checkout`, `diff`, `merge`, `log`, `revert`, `getState`, `head`,
`currentBranch` and `listBranches` operations.

Modelling conventions, each noted again at the definition it concerns:
* JavaScript values that are parsed JSON are modelled by the inductive
  `Json`; `JSON.parse (JSON.stringify v) = v` round-trips are modelled as
  the identity on `Json`.
* ISO-8601 timestamps produced by `new Date().toISOString()` are modelled
  by a `Nat` clock value threaded into every mutating operation;
  `toISOString` is an order-preserving injection, so `new Date(t).getTime()`
  is modelled as the identity and the timestamp inside a serialized state is
  rendered as the decimal string of the clock value.
* JavaScript exceptions are modelled with `Except String`; operations that
  mutate `this` before throwing return the mutated repository next to the
  error, exactly as the JavaScript object would retain those mutations.
* Stateful methods become pure functions from a repository value to a
  result paired with the next repository value.
-/

set_option maxRecDepth 200000

/-- A JSON value as produced by `JSON.parse`: `null`, booleans, numbers,
strings, arrays, and objects whose fields keep insertion order.  Numbers are
restricted to integers, which covers every payload the SDK's own tests and
the spec's scenarios use; nothing in the verified claims depends on float
formatting. -/
inductive Json where
  | null : Json
  | bool (b : Bool) : Json
  | num (n : Int) : Json
  | str (s : String) : Json
  | arr (elems : List Json) : Json
  | obj (fields : List (String × Json)) : Json

mutual

/-- Structural equality of JSON values.  The source compares values by
`JSON.stringify(bVal) !== JSON.stringify(tVal)`; on parsed JSON values
(where object fields keep their insertion order and numbers are canonical)
stringify equality coincides with this structural equality, because
`stringifyJson` below is injective on such values. -/
def jsonBeq : Json → Json → Bool
  | .null, .null => true
  | .bool x, .bool y => x == y
  | .num x, .num y => x == y
  | .str x, .str y => x == y
  | .arr xs, .arr ys => jsonBeqList xs ys
  | .obj xs, .obj ys => jsonBeqFields xs ys
  | _, _ => false

def jsonBeqList : List Json → List Json → Bool
  | [], [] => true
  | x :: xs, y :: ys => jsonBeq x y && jsonBeqList xs ys
  | _, _ => false

def jsonBeqFields : List (String × Json) → List (String × Json) → Bool
  | [], [] => true
  | (k, v) :: xs, (k', v') :: ys => k == k' && jsonBeq v v' && jsonBeqFields xs ys
  | _, _ => false

end

/-- `typeof v === "object" && v !== null && !Array.isArray(v)`: exactly the
JSON objects. -/
def Json.isObj : Json → Bool
  | .obj _ => true
  | _ => false

/-- The field list of an object, `[]` on every other constructor.  Used
only under an `isObj` guard, mirroring the source's cast
`bVal as Record<string, unknown>`. -/
def Json.objFields : Json → List (String × Json)
  | .obj fs => fs
  | _ => []

/-- One character of JSON string escaping as performed by
`JSON.stringify`: the two mandatory escapes, the short control escapes, and
`\u00XX` for the remaining control characters. -/
def escapeChar (c : Char) : String :=
  if c = '"' then "\\\""
  else if c = '\\' then "\\\\"
  else if c = '\x08' then "\\b"
  else if c = '\t' then "\\t"
  else if c = '\n' then "\\n"
  else if c = '\x0c' then "\\f"
  else if c = '\r' then "\\r"
  else if c.toNat < 32 then "\\u00" ++ String.mk [Nat.digitChar (c.toNat / 16), Nat.digitChar (c.toNat % 16)]
  else String.singleton c

/-- A JSON string literal: quotes around the escaped characters. -/
def jsonQuote (s : String) : String :=
  "\"" ++ s.data.foldr (fun c acc => escapeChar c ++ acc) "" ++ "\""

mutual

/-- `JSON.stringify` on parsed JSON values: no whitespace, object fields in
stored (insertion) order, integers in decimal. -/
def stringifyJson : Json → String
  | .null => "null"
  | .bool true => "true"
  | .bool false => "false"
  | .num n => toString n
  | .str s => jsonQuote s
  | .arr xs => "[" ++ stringifyList xs ++ "]"
  | .obj fs => "\x7b" ++ stringifyFields fs ++ "\x7d"

def stringifyList : List Json → String
  | [] => ""
  | [x] => stringifyJson x
  | x :: xs => stringifyJson x ++ "," ++ stringifyList xs

def stringifyFields : List (String × Json) → String
  | [] => ""
  | [(k, v)] => jsonQuote k ++ ":" ++ stringifyJson v
  | (k, v) :: xs => jsonQuote k ++ ":" ++ stringifyJson v ++ "," ++ stringifyFields xs

end

/-- The UTF-16 code units of a character, as read by
`String.prototype.charCodeAt`: the code point itself below `0x10000`, a
surrogate pair above. -/
def utf16Codes (c : Char) : List Nat :=
  if c.toNat < 65536 then [c.toNat]
  else [55296 + (c.toNat - 65536) / 1024, 56320 + (c.toNat - 65536) % 1024]

/-- The sequence `data.charCodeAt(0), …, data.charCodeAt(data.length - 1)`
of a JavaScript string. -/
def strCodes (s : String) : List Nat :=
  s.data.foldr (fun c acc => utf16Codes c ++ acc) []

/-- One loop iteration of the fallback hash:
`h = ((h << 5n) + h + BigInt(data.charCodeAt(i))) & 0xffffffffffffffffn`. -/
def djb2step (h c : Nat) : Nat := ((h <<< 5) + h + c) % (2 ^ 64)

/-- The djb2-variant accumulator of `sha256Sync`, seeded with `5381n`. -/
def djb2 (codes : List Nat) : Nat := codes.foldl djb2step 5381

/-- `BigInt.prototype.toString(16)`: lowercase hex digits, most significant
first, `"0"` for zero.  Written with an explicit recursion-depth budget so
that it is structurally recursive; 64 levels cover every value below
`16 ^ 64`, far beyond the 64-bit accumulator. -/
def toHexAux : Nat → Nat → List Char
  | 0, _ => []
  | fuel+1, n => if n < 16 then [Nat.digitChar n] else toHexAux fuel (n / 16) ++ [Nat.digitChar (n % 16)]

/-- `padStart(16, "0")`: left-pad with zeros up to 16 characters. -/
def padStart16 (s : String) : String := String.mk (List.replicate (16 - s.length) '0') ++ s

/-- The 64-character identifier built from a 64-bit accumulator value: its
16-digit hex block repeated four times (`.repeat(4)` in the source). -/
def hexBlock64 (n : Nat) : String :=
  let block := padStart16 (String.mk (toHexAux 64 n))
  block ++ block ++ block ++ block

/-- `sha256Sync` from `client.ts`: the minimal deterministic djb2-variant
hash used by the pure-TypeScript fallback when the native binary is
absent. -/
def sha256Sync (data : String) : String := hexBlock64 (djb2 (strCodes data))

/-- The sixteen lowercase hex digit characters. -/
def hexChars : List Char := "0123456789abcdef".data

theorem djb2step_lt (h c : Nat) : djb2step h c < 2 ^ 64 := by
  unfold djb2step
  exact Nat.mod_lt _ (by norm_num)

theorem djb2_foldl_lt (codes : List Nat) :
    ∀ h, h < 2 ^ 64 → List.foldl djb2step h codes < 2 ^ 64 := by
  induction codes with
  | nil => intro h hh; simpa using hh
  | cons d ds ihd =>
    intro h _
    rw [List.foldl_cons]
    exact ihd (djb2step h d) (djb2step_lt h d)

theorem djb2_lt (codes : List Nat) : djb2 codes < 2 ^ 64 := by
  unfold djb2
  exact djb2_foldl_lt codes 5381 (by norm_num)

theorem digitChar_mem_hexChars {m : Nat} (hm : m < 16) : Nat.digitChar m ∈ hexChars := by
  have : ∀ m' : Nat, m' < 16 → Nat.digitChar m' ∈ hexChars := by decide
  exact this m hm

theorem toHexAux_chars (fuel n : Nat) : ∀ c ∈ toHexAux fuel n, c ∈ hexChars := by
  induction fuel generalizing n with
  | zero => simp [toHexAux]
  | succ fuel ih =>
    intro c hc
    unfold toHexAux at hc
    by_cases h16 : n < 16
    · simp only [if_pos h16, List.mem_singleton] at hc
      exact hc ▸ digitChar_mem_hexChars h16
    · simp only [if_neg h16, List.mem_append, List.mem_singleton] at hc
      rcases hc with hc | hc
      · exact ih (n / 16) c hc
      · exact hc ▸ digitChar_mem_hexChars (Nat.mod_lt _ (by norm_num))

theorem toHexAux_length (fuel : Nat) :
    ∀ n k, n < 16 ^ k → 0 < k → k ≤ fuel → (toHexAux fuel n).length ≤ k := by
  induction fuel with
  | zero => intro n k _ _ hk; omega
  | succ fuel ih =>
    intro n k hn hk _
    unfold toHexAux
    by_cases h16 : n < 16
    · simp [if_pos h16]; omega
    · simp only [if_neg h16, List.length_append, List.length_singleton]
      have hk2 : 2 ≤ k := by
        by_contra hlt
        have hk1 : k = 1 := by omega
        subst hk1
        simp at hn
        omega
      have hdiv : n / 16 < 16 ^ (k - 1) := by
        rw [Nat.div_lt_iff_lt_mul (by norm_num)]
        calc n < 16 ^ k := hn
        _ = 16 ^ (k - 1) * 16 := by
            rw [← Nat.pow_succ]
            congr 1
            omega
      have hfuel : k - 1 ≤ fuel := by
        by_cases hkf : k ≤ fuel + 1
        · omega
        · omega
      have := ih (n / 16) (k - 1) hdiv (by omega) hfuel
      omega

theorem toHexAux_ne_nil (fuel n : Nat) (hf : 0 < fuel) : (toHexAux fuel n).length ≥ 1 := by
  match fuel, hf with
  | fuel'+1, _ =>
    unfold toHexAux
    by_cases h16 : n < 16
    · simp [if_pos h16]
    · simp [if_neg h16]

theorem padStart16_length {s : String} (h : s.length ≤ 16) : (padStart16 s).length = 16 := by
  unfold padStart16
  rw [String.length_append]
  simp only [String.length_mk, List.length_replicate]
  omega

theorem padStart16_chars (s : String) (h : ∀ c ∈ s.data, c ∈ hexChars) :
    ∀ c ∈ (padStart16 s).data, c ∈ hexChars := by
  intro c hc
  unfold padStart16 at hc
  rw [String.data_append] at hc
  simp only [List.mem_append] at hc
  rcases hc with hc | hc
  · have hc' : c ∈ List.replicate (16 - s.length) '0' := hc
    rw [List.mem_replicate] at hc'
    rw [hc'.2]
    decide
  · exact h c hc

/-- C10: `sha256Sync` is deterministic (it is a pure function of the input
code units) and always returns a 64-character string consisting of one
16-character lowercase-hex block repeated four times; moreover it factors
through the 64-bit accumulator `djb2`, so at most `2 ^ 64` distinct
identifiers (commit hashes, tree hashes) can ever be produced by the
fallback repository. -/
theorem sha256Sync_repeated_block_structure (data : String) :
    (sha256Sync data).length = 64 ∧
    (∃ block : String, block.length = 16 ∧ (∀ c ∈ block.data, c ∈ hexChars) ∧
      sha256Sync data = block ++ block ++ block ++ block) ∧
    sha256Sync data = hexBlock64 (djb2 (strCodes data)) ∧
    djb2 (strCodes data) < 2 ^ 64 := by
  have hlt : djb2 (strCodes data) < 2 ^ 64 := djb2_lt (strCodes data)
  have hhexlen : (toHexAux 64 (djb2 (strCodes data))).length ≤ 16 := by
    have h16 : djb2 (strCodes data) < 16 ^ 16 := by
      have : (16 : Nat) ^ 16 = 2 ^ 64 := by norm_num
      omega
    exact toHexAux_length 64 _ 16 h16 (by norm_num) (by norm_num)
  have hblocklen : (padStart16 (String.mk (toHexAux 64 (djb2 (strCodes data))))).length = 16 := by
    apply padStart16_length
    simpa [String.length_mk] using hhexlen
  have hblockchars : ∀ c ∈ (padStart16 (String.mk (toHexAux 64 (djb2 (strCodes data))))).data,
      c ∈ hexChars := by
    apply padStart16_chars
    intro c hc
    exact toHexAux_chars 64 _ c hc
  refine ⟨?_, ⟨padStart16 (String.mk (toHexAux 64 (djb2 (strCodes data)))),
    hblocklen, hblockchars, rfl⟩, rfl, hlt⟩
  show (hexBlock64 (djb2 (strCodes data))).length = 64
  unfold hexBlock64
  simp only [String.length_append]
  omega

mutual

/-- A size measure on JSON values, used as the termination measure of the
recursive diff below (the source recursion is on the JavaScript object
tree). -/
def jsonSize : Json → Nat
  | .null => 1
  | .bool _ => 1
  | .num _ => 1
  | .str _ => 1
  | .arr xs => 1 + jsonSizeList xs
  | .obj fs => 1 + jsonSizeFields fs

def jsonSizeList : List Json → Nat
  | [] => 0
  | x :: xs => jsonSize x + jsonSizeList xs

def jsonSizeFields : List (String × Json) → Nat
  | [] => 0
  | (_, v) :: xs => jsonSize v + jsonSizeFields xs

end

theorem jsonSize_pos (j : Json) : 1 ≤ jsonSize j := by
  cases j <;> simp [jsonSize]

/-- `ChangeType` from `types.ts`. -/
inductive ChangeType where
  | added : ChangeType
  | removed : ChangeType
  | changed : ChangeType
deriving DecidableEq

/-- `DiffEntry` from `types.ts`: a path, a change type, and the optional
old/new values.  The source stores `old_value` / `new_value` as
`JSON.stringify` strings; since `stringifyJson` is injective on parsed JSON
values they are modelled by the values themselves (`none` when the source
leaves the field `undefined`). -/
structure DiffEntry where
  path : List String
  change_type : ChangeType
  old_value : Option Json
  new_value : Option Json

/-- JavaScript property access `m[k]` on an object modelled as its ordered
field list: the first binding of `k`, `none` when the key is absent (so
`k in m` is `(lookupKey k m).isSome`). -/
def lookupKey (k : String) : List (String × α) → Option α
  | [] => none
  | (k', v) :: tl => if k = k' then some v else lookupKey k tl

/-- The keys of a JavaScript object in insertion order (`Object.keys`). -/
def keysOf (m : List (String × Json)) : List String := m.map Prod.fst

/-- First-occurrence deduplication, as performed by
`new Set([...Object.keys(base), ...Object.keys(target)])`. -/
def dedupKeys : List String → List String
  | [] => []
  | k :: ks => k :: (dedupKeys ks).filter (fun x => x ≠ k)

theorem mem_dedupKeys {x : String} : ∀ {l : List String}, x ∈ dedupKeys l ↔ x ∈ l := by
  intro l
  induction l with
  | nil => simp [dedupKeys]
  | cons k ks ih =>
    simp only [dedupKeys, List.mem_cons, List.mem_filter, decide_eq_true_eq]
    constructor
    · rintro (rfl | ⟨hx, _⟩)
      · exact .inl rfl
      · exact .inr (ih.mp hx)
    · rintro (rfl | hx)
      · exact .inl rfl
      · by_cases hxk : x = k
        · exact .inl hxk
        · exact .inr ⟨ih.mpr hx, hxk⟩

theorem lookup_some_mem_keys {l : List (String × Json)} {k : String} {v : Json}
    (h : lookupKey k l = some v) : k ∈ keysOf l := by
  induction l with
  | nil => simp [lookupKey] at h
  | cons p tl ih =>
    match p with
    | (k', v') =>
      rw [lookupKey] at h
      by_cases hk : k = k'
      · simp [keysOf, hk]
      · rw [if_neg hk] at h
        simp only [keysOf, List.map_cons, List.mem_cons]
        exact .inr (ih h)

theorem lookup_size_le {l : List (String × Json)} {k : String} {v : Json}
    (h : lookupKey k l = some v) : jsonSize v ≤ jsonSizeFields l := by
  induction l with
  | nil => simp [lookupKey] at h
  | cons p tl ih =>
    match p with
    | (k', v') =>
      rw [lookupKey] at h
      by_cases hk : k = k'
      · rw [if_pos hk] at h
        cases h
        simp [jsonSizeFields]
      · rw [if_neg hk] at h
        calc jsonSize v ≤ jsonSizeFields tl := ih h
        _ ≤ jsonSizeFields ((k', v') :: tl) := by
            simp [jsonSizeFields]

theorem objFields_size_lt {j : Json} (h : j.isObj = true) :
    jsonSizeFields j.objFields < jsonSize j := by
  cases j <;> simp [Json.isObj] at h ⊢ <;> simp [Json.objFields, jsonSize]

/-- The per-key loop body of `diffValues`, iterating over the explicit key
list `keys` (the deduplicated keys of both objects).  Each key emits
`Added` / `Removed` when it is present on one side only, recurses when both
values are JSON objects, and otherwise emits `Changed` exactly when the two
serialized values differ. -/
def diffKeys (base target : List (String × Json)) (keys : List String) (path : List String) :
    List DiffEntry :=
  match keys with
  | [] => []
  | key :: rest =>
    (match hb : lookupKey key base, ht : lookupKey key target with
     | none, some tVal => [⟨path ++ [key], .added, none, some tVal⟩]
     | some bVal, none => [⟨path ++ [key], .removed, some bVal, none⟩]
     | some bVal, some tVal =>
       if hO : bVal.isObj && tVal.isObj then
         diffKeys bVal.objFields tVal.objFields
           (dedupKeys (keysOf bVal.objFields ++ keysOf tVal.objFields)) (path ++ [key])
       else if jsonBeq bVal tVal then []
       else [⟨path ++ [key], .changed, some bVal, some tVal⟩]
     | none, none => []) ++ diffKeys base target rest path
termination_by (jsonSizeFields base + jsonSizeFields target, keys.length)
decreasing_by
  · apply Prod.Lex.left
    have hand := Bool.and_eq_true_iff.mp hO
    have h1 : jsonSizeFields bVal.objFields < jsonSize bVal := objFields_size_lt hand.1
    have h2 : jsonSizeFields tVal.objFields < jsonSize tVal := objFields_size_lt hand.2
    have h3 := lookup_size_le hb
    have h4 := lookup_size_le ht
    omega
  · apply Prod.Lex.right
    simp

/-- `diffValues(base, target, path)` from `client.ts`: the recursive JSON
diff helper of the pure-TypeScript fallback. -/
def diffValues (base target : List (String × Json)) (path : List String) : List DiffEntry :=
  diffKeys base target (dedupKeys (keysOf base ++ keysOf target)) path

theorem diffKeys_nil (base target : List (String × Json)) (path : List String) :
    diffKeys base target [] path = [] := by
  simp [diffKeys]

theorem diffKeys_cons (base target : List (String × Json)) (k : String) (rest : List String)
    (path : List String) :
    diffKeys base target (k :: rest) path =
      diffKeys base target [k] path ++ diffKeys base target rest path := by
  conv_lhs => rw [diffKeys]
  conv_rhs => rw [diffKeys]
  simp [diffKeys_nil]

theorem diffKeys_single_nn {base target : List (String × Json)} {k : String} (path : List String)
    (hb : lookupKey k base = none) (ht : lookupKey k target = none) :
    diffKeys base target [k] path = [] := by
  rw [diffKeys, hb, ht]
  simp [diffKeys_nil]

theorem diffKeys_single_add {base target : List (String × Json)} {k : String} {tVal : Json}
    (path : List String) (hb : lookupKey k base = none) (ht : lookupKey k target = some tVal) :
    diffKeys base target [k] path = [⟨path ++ [k], .added, none, some tVal⟩] := by
  rw [diffKeys, hb, ht]
  simp [diffKeys_nil]

theorem diffKeys_single_rem {base target : List (String × Json)} {k : String} {bVal : Json}
    (path : List String) (hb : lookupKey k base = some bVal) (ht : lookupKey k target = none) :
    diffKeys base target [k] path = [⟨path ++ [k], .removed, some bVal, none⟩] := by
  rw [diffKeys, hb, ht]
  simp [diffKeys_nil]

theorem diffKeys_single_obj {base target : List (String × Json)} {k : String} {bVal tVal : Json}
    (path : List String) (hb : lookupKey k base = some bVal) (ht : lookupKey k target = some tVal)
    (hO : (bVal.isObj && tVal.isObj) = true) :
    diffKeys base target [k] path =
      diffKeys bVal.objFields tVal.objFields
        (dedupKeys (keysOf bVal.objFields ++ keysOf tVal.objFields)) (path ++ [k]) := by
  rw [diffKeys, hb, ht]
  simp [diffKeys_nil, hO]

theorem diffKeys_single_beq {base target : List (String × Json)} {k : String} {bVal tVal : Json}
    (path : List String) (hb : lookupKey k base = some bVal) (ht : lookupKey k target = some tVal)
    (hO : (bVal.isObj && tVal.isObj) = false) (hbeq : jsonBeq bVal tVal = true) :
    diffKeys base target [k] path = [] := by
  rw [diffKeys, hb, ht]
  simp [diffKeys_nil, hO, hbeq]

theorem diffKeys_single_chg {base target : List (String × Json)} {k : String} {bVal tVal : Json}
    (path : List String) (hb : lookupKey k base = some bVal) (ht : lookupKey k target = some tVal)
    (hO : (bVal.isObj && tVal.isObj) = false) (hbeq : jsonBeq bVal tVal = false) :
    diffKeys base target [k] path = [⟨path ++ [k], .changed, some bVal, some tVal⟩] := by
  rw [diffKeys, hb, ht]
  simp [diffKeys_nil, hO, hbeq]

theorem mem_diffKeys_iff {e : DiffEntry} {base target : List (String × Json)}
    {keys path : List String} :
    e ∈ diffKeys base target keys path ↔ ∃ k ∈ keys, e ∈ diffKeys base target [k] path := by
  induction keys with
  | nil => simp [diffKeys_nil]
  | cons k rest ih =>
    rw [diffKeys_cons]
    simp only [List.mem_append, List.mem_cons, ih]
    constructor
    · rintro (h | ⟨k', hk', h⟩)
      · exact ⟨k, .inl rfl, h⟩
      · exact ⟨k', .inr hk', h⟩
    · rintro ⟨k', (rfl | hk'), h⟩
      · exact .inl h
      · exact .inr ⟨k', hk', h⟩

theorem jsonBeq_symm_all : ∀ N : Nat,
    (∀ a b : Json, jsonSize a ≤ N → jsonBeq a b = jsonBeq b a) ∧
    (∀ xs ys : List Json, jsonSizeList xs ≤ N → jsonBeqList xs ys = jsonBeqList ys xs) ∧
    (∀ fs gs : List (String × Json), jsonSizeFields fs ≤ N →
      jsonBeqFields fs gs = jsonBeqFields gs fs) := by
  intro N
  induction N using Nat.strong_induction_on with
  | _ N ih =>
    have hval : ∀ a b : Json, jsonSize a ≤ N → jsonBeq a b = jsonBeq b a := by
      intro a b ha
      cases a <;> cases b <;> simp [jsonBeq]
      case bool.bool x y => exact eq_comm
      case num.num x y => exact eq_comm
      case str.str s1 s2 => exact eq_comm
      case arr.arr xs ys =>
        simp only [jsonSize] at ha
        exact (ih (N - 1) (by omega)).2.1 xs ys (by omega)
      case obj.obj fs gs =>
        simp only [jsonSize] at ha
        exact (ih (N - 1) (by omega)).2.2 fs gs (by omega)
    refine ⟨hval, ?_, ?_⟩
    · intro xs ys hxs
      cases xs with
      | nil => cases ys <;> simp [jsonBeqList]
      | cons x xs' =>
        cases ys with
        | nil => simp [jsonBeqList]
        | cons y ys' =>
          simp only [jsonBeqList]
          simp only [jsonSizeList] at hxs
          have hx1 := jsonSize_pos x
          rw [hval x y (by omega), (ih (N - 1) (by omega)).2.1 xs' ys' (by omega)]
    · intro fs gs hfs
      cases fs with
      | nil => cases gs <;> simp [jsonBeqFields]
      | cons p fs' =>
        cases gs with
        | nil => simp [jsonBeqFields]
        | cons q gs' =>
          obtain ⟨k, v⟩ := p
          obtain ⟨k', v'⟩ := q
          simp only [jsonBeqFields]
          simp only [jsonSizeFields] at hfs
          have hv1 := jsonSize_pos v
          have hk : (k == k') = (k' == k) := by
            by_cases h : k = k'
            · simp [h]
            · simp [h, Ne.symm h]
          rw [hk, hval v v' (by omega), (ih (N - 1) (by omega)).2.2 fs' gs' (by omega)]

theorem jsonBeq_symm (a b : Json) : jsonBeq a b = jsonBeq b a :=
  (jsonBeq_symm_all (jsonSize a)).1 a b le_rfl


theorem diffValues_symm_master : ∀ N : Nat, ∀ base target : List (String × Json),
    jsonSizeFields base + jsonSizeFields target ≤ N →
    ∀ (path p : List String) (v a b : Json),
    (((⟨p, .added, none, some v⟩ : DiffEntry) ∈ diffValues base target path) ↔
      ((⟨p, .removed, some v, none⟩ : DiffEntry) ∈ diffValues target base path)) ∧
    (((⟨p, .changed, some a, some b⟩ : DiffEntry) ∈ diffValues base target path) ↔
      ((⟨p, .changed, some b, some a⟩ : DiffEntry) ∈ diffValues target base path)) := by
  intro N
  induction N using Nat.strong_induction_on with
  | _ N ih =>
    intro base target hN path p v a b
    have keyiff : ∀ k : String,
        (((⟨p, .added, none, some v⟩ : DiffEntry) ∈ diffKeys base target [k] path) ↔
          ((⟨p, .removed, some v, none⟩ : DiffEntry) ∈ diffKeys target base [k] path)) ∧
        (((⟨p, .changed, some a, some b⟩ : DiffEntry) ∈ diffKeys base target [k] path) ↔
          ((⟨p, .changed, some b, some a⟩ : DiffEntry) ∈ diffKeys target base [k] path)) := by
      intro k
      cases hb : lookupKey k base with
      | none =>
        cases ht : lookupKey k target with
        | none =>
          rw [diffKeys_single_nn path hb ht, diffKeys_single_nn path ht hb]
          simp
        | some tVal =>
          rw [diffKeys_single_add path hb ht, diffKeys_single_rem path ht hb]
          constructor
          · simp [DiffEntry.mk.injEq]
          · simp [DiffEntry.mk.injEq]
      | some bVal =>
        cases ht : lookupKey k target with
        | none =>
          rw [diffKeys_single_rem path hb ht, diffKeys_single_add path ht hb]
          constructor
          · simp [DiffEntry.mk.injEq]
          · simp [DiffEntry.mk.injEq]
        | some tVal =>
          by_cases hO : (bVal.isObj && tVal.isObj) = true
          · have hO' : (tVal.isObj && bVal.isObj) = true := by
              rw [Bool.and_comm]; exact hO
            rw [diffKeys_single_obj path hb ht hO, diffKeys_single_obj path ht hb hO']
            have hand := Bool.and_eq_true_iff.mp hO
            have h1 : jsonSizeFields bVal.objFields < jsonSize bVal := objFields_size_lt hand.1
            have h2 : jsonSizeFields tVal.objFields < jsonSize tVal := objFields_size_lt hand.2
            have h3 := lookup_size_le hb
            have h4 := lookup_size_le ht
            have hsz : jsonSizeFields bVal.objFields + jsonSizeFields tVal.objFields < N := by
              omega
            exact ih (jsonSizeFields bVal.objFields + jsonSizeFields tVal.objFields) hsz
              bVal.objFields tVal.objFields le_rfl (path ++ [k]) p v a b
          · have hOf : (bVal.isObj && tVal.isObj) = false := by simpa using hO
            have hOf' : (tVal.isObj && bVal.isObj) = false := by
              rw [Bool.and_comm]; exact hOf
            by_cases hbeq : jsonBeq bVal tVal = true
            · have hbeq' : jsonBeq tVal bVal = true := by rw [jsonBeq_symm]; exact hbeq
              rw [diffKeys_single_beq path hb ht hOf hbeq,
                diffKeys_single_beq path ht hb hOf' hbeq']
              simp
            · have hbeqf : jsonBeq bVal tVal = false := by simpa using hbeq
              have hbeqf' : jsonBeq tVal bVal = false := by rw [jsonBeq_symm]; exact hbeqf
              rw [diffKeys_single_chg path hb ht hOf hbeqf,
                diffKeys_single_chg path ht hb hOf' hbeqf']
              constructor
              · simp [DiffEntry.mk.injEq]
              · simp only [List.mem_singleton, DiffEntry.mk.injEq, Option.some.injEq]
                tauto
    have hkeys : ∀ k : String,
        (k ∈ dedupKeys (keysOf base ++ keysOf target)) ↔
          (k ∈ dedupKeys (keysOf target ++ keysOf base)) := by
      intro k
      rw [mem_dedupKeys, mem_dedupKeys, List.mem_append, List.mem_append, or_comm]
    constructor
    · unfold diffValues
      rw [mem_diffKeys_iff, mem_diffKeys_iff]
      constructor
      · rintro ⟨k, hk, hmem⟩
        exact ⟨k, (hkeys k).mp hk, (keyiff k).1.mp hmem⟩
      · rintro ⟨k, hk, hmem⟩
        exact ⟨k, (hkeys k).mpr hk, (keyiff k).1.mpr hmem⟩
    · unfold diffValues
      rw [mem_diffKeys_iff, mem_diffKeys_iff]
      constructor
      · rintro ⟨k, hk, hmem⟩
        exact ⟨k, (hkeys k).mp hk, (keyiff k).2.mp hmem⟩
      · rintro ⟨k, hk, hmem⟩
        exact ⟨k, (hkeys k).mpr hk, (keyiff k).2.mpr hmem⟩

/-- `AgentState` from `types.ts`: the snapshot stored at each commit.
`timestamp` is the `Nat`-modelled clock instant (see the file header);
`metadata` is `none` when the JavaScript value is `undefined`. -/
structure AgentState where
  memory : Json
  world_state : Json
  timestamp : Nat
  cost : Int
  metadata : Option Json

/-- The state value seen as the JavaScript record that
`PureTsRepository.diff` hands to `diffValues`
(`e1.state as unknown as Record<string, unknown>`): the literal field order
of the `state` object built in `commit`.  The JavaScript record always
carries a `metadata` property, possibly holding `undefined`; two `undefined`
metadata fields are stringify-equal and produce no diff entry, which
coincides with omitting the key on both sides as done here.  The timestamp
string is the decimal rendering of the modelled clock. -/
def stateFields (s : AgentState) : List (String × Json) :=
  [("memory", s.memory), ("world_state", s.world_state),
   ("timestamp", Json.str (toString s.timestamp)), ("cost", Json.num s.cost)] ++
  (match s.metadata with
   | some m => [("metadata", m)]
   | none => [])

/-- The entry list of `PureTsRepository.diff` on two stored states:
`diffValues(e1.state, e2.state, [])`. -/
def stateDiff (s t : AgentState) : List DiffEntry :=
  diffValues (stateFields s) (stateFields t) []

/-- C7: diff classification is symmetric: every `Added(p, v)` entry of
`diff(S, T)` corresponds to a `Removed(p, v)` entry of `diff(T, S)` and vice
versa, and every `Changed(p, a, b)` entry of `diff(S, T)` corresponds to a
`Changed(p, b, a)` entry of `diff(T, S)`. -/
theorem diff_symmetry_of_classification (S T : AgentState) (p : List String) (v a b : Json) :
    (((⟨p, .added, none, some v⟩ : DiffEntry) ∈ stateDiff S T) ↔
      ((⟨p, .removed, some v, none⟩ : DiffEntry) ∈ stateDiff T S)) ∧
    (((⟨p, .changed, some a, some b⟩ : DiffEntry) ∈ stateDiff S T) ↔
      ((⟨p, .changed, some b, some a⟩ : DiffEntry) ∈ stateDiff T S)) :=
  diffValues_symm_master (jsonSizeFields (stateFields S) + jsonSizeFields (stateFields T))
    (stateFields S) (stateFields T) le_rfl [] p v a b

/-- The concrete base state of the spec's diff scenario: memory
`{a:1, b:2}`, committed first (clock 1). -/
def diffExampleBase : AgentState :=
  ⟨Json.obj [("a", Json.num 1), ("b", Json.num 2)], Json.obj [], 1, 0, none⟩

/-- The concrete target state of the spec's diff scenario: memory
`{a:1, b:3, c:4}`, committed second (clock 2). -/
def diffExampleTarget : AgentState :=
  ⟨Json.obj [("a", Json.num 1), ("b", Json.num 3), ("c", Json.num 4)], Json.obj [], 2, 0, none⟩

/-- C6: `diffValues` recursively compares per key: `Removed(path, old)` for
keys only in the base, `Added(path, new)` for keys only in the target,
recursion when both values are JSON objects, `Changed(path, old, new)` for
other unequal values; two arrays are compared by whole serialized value and
a mismatch yields the single `Changed` entry at the array path; and on the
spec's concrete scenario (memories `{a:1,b:2}` vs `{a:1,b:3,c:4}`) the diff
has exactly one `Changed` at `["memory","b"]`, exactly one `Added` at
`["memory","c"]`, and no entry at `["memory","a"]`. -/
theorem diffValues_classification_spec :
    (∀ (base target : List (String × Json)) (path : List String) (k : String) (bv : Json),
      lookupKey k base = some bv → lookupKey k target = none →
      (⟨path ++ [k], .removed, some bv, none⟩ : DiffEntry) ∈ diffValues base target path) ∧
    (∀ (base target : List (String × Json)) (path : List String) (k : String) (tv : Json),
      lookupKey k base = none → lookupKey k target = some tv →
      (⟨path ++ [k], .added, none, some tv⟩ : DiffEntry) ∈ diffValues base target path) ∧
    (∀ (base target : List (String × Json)) (path : List String) (k : String) (bv tv : Json),
      lookupKey k base = some bv → lookupKey k target = some tv →
      (bv.isObj && tv.isObj) = false → jsonBeq bv tv = false →
      (⟨path ++ [k], .changed, some bv, some tv⟩ : DiffEntry) ∈ diffValues base target path) ∧
    (∀ (base target : List (String × Json)) (path : List String) (k : String)
      (bo to' : List (String × Json)),
      lookupKey k base = some (Json.obj bo) → lookupKey k target = some (Json.obj to') →
      ∀ e ∈ diffValues bo to' (path ++ [k]), e ∈ diffValues base target path) ∧
    (∀ (k : String) (xs ys : List Json) (path : List String),
      jsonBeq (Json.arr xs) (Json.arr ys) = false →
      diffValues [(k, Json.arr xs)] [(k, Json.arr ys)] path =
        [⟨path ++ [k], .changed, some (Json.arr xs), some (Json.arr ys)⟩]) ∧
    ((stateDiff diffExampleBase diffExampleTarget).filter
        (fun e => e.path = ["memory", "b"]) =
      [⟨["memory", "b"], .changed, some (Json.num 2), some (Json.num 3)⟩] ∧
    (stateDiff diffExampleBase diffExampleTarget).filter
        (fun e => e.path = ["memory", "c"]) =
      [⟨["memory", "c"], .added, none, some (Json.num 4)⟩] ∧
    (stateDiff diffExampleBase diffExampleTarget).filter
        (fun e => e.path = ["memory", "a"]) = []) := by
  refine ⟨?_, ?_, ?_, ?_, ?_, ?_⟩
  · intro base target path k bv hb ht
    unfold diffValues
    rw [mem_diffKeys_iff]
    refine ⟨k, ?_, ?_⟩
    · rw [mem_dedupKeys, List.mem_append]
      exact .inl (lookup_some_mem_keys hb)
    · rw [diffKeys_single_rem path hb ht]
      simp
  · intro base target path k tv hb ht
    unfold diffValues
    rw [mem_diffKeys_iff]
    refine ⟨k, ?_, ?_⟩
    · rw [mem_dedupKeys, List.mem_append]
      exact .inr (lookup_some_mem_keys ht)
    · rw [diffKeys_single_add path hb ht]
      simp
  · intro base target path k bv tv hb ht hO hbeq
    unfold diffValues
    rw [mem_diffKeys_iff]
    refine ⟨k, ?_, ?_⟩
    · rw [mem_dedupKeys, List.mem_append]
      exact .inl (lookup_some_mem_keys hb)
    · rw [diffKeys_single_chg path hb ht hO hbeq]
      simp
  · intro base target path k bo to' hb ht e he
    unfold diffValues
    rw [mem_diffKeys_iff]
    refine ⟨k, ?_, ?_⟩
    · rw [mem_dedupKeys, List.mem_append]
      exact .inl (lookup_some_mem_keys hb)
    · rw [diffKeys_single_obj path hb ht (by simp [Json.isObj])]
      simpa [diffValues, Json.objFields] using he
  · intro k xs ys path hbeq
    unfold diffValues
    have hb : lookupKey k [(k, Json.arr xs)] = some (Json.arr xs) := by simp [lookupKey]
    have ht : lookupKey k [(k, Json.arr ys)] = some (Json.arr ys) := by simp [lookupKey]
    have hkeys : dedupKeys (keysOf [(k, Json.arr xs)] ++ keysOf [(k, Json.arr ys)]) = [k] := by
      simp [keysOf, dedupKeys]
    rw [hkeys, diffKeys_single_chg path hb ht (by simp [Json.isObj]) hbeq]
  · refine ⟨?_, ?_, ?_⟩ <;>
      simp +decide [stateDiff, diffValues, stateFields, diffExampleBase, diffExampleTarget,
        keysOf, dedupKeys, diffKeys, lookupKey, Json.isObj, Json.objFields,
        jsonBeq, jsonBeqList, jsonBeqFields]

/-- Witness for C6: the clauses of `diffValues_classification_spec`
instantiated at concrete one-field objects. -/
theorem diffValues_classification_spec_witness :
    ((⟨["x"], .removed, some (Json.num 1), none⟩ : DiffEntry) ∈
      diffValues [("x", Json.num 1)] [] []) ∧
    ((⟨["y"], .added, none, some (Json.num 2)⟩ : DiffEntry) ∈
      diffValues [] [("y", Json.num 2)] []) ∧
    diffValues [("k", Json.arr [Json.num 1])] [("k", Json.arr [Json.num 2])] [] =
      [⟨["k"], .changed, some (Json.arr [Json.num 1]), some (Json.arr [Json.num 2])⟩] :=
  ⟨by
    have h := diffValues_classification_spec.1 [("x", Json.num 1)] [] [] "x" (Json.num 1)
      (by rfl) (by rfl)
    simpa using h,
   by
    have h := diffValues_classification_spec.2.1 [] [("y", Json.num 2)] [] "y" (Json.num 2)
      (by rfl) (by rfl)
    simpa using h,
   by
    have h := diffValues_classification_spec.2.2.2.2.1 "k" [Json.num 1] [Json.num 2] []
      (by decide)
    simpa using h⟩

/-- `Commit` from `types.ts`. -/
structure Commit where
  hash : String
  tree_hash : String
  parent_hashes : List String
  message : String
  author : String
  timestamp : Nat
  action_type : String

/-- The value stored in the fallback's `commits` map:
`Commit & { state: AgentState }`. -/
structure StoredCommit extends Commit where
  state : AgentState

/-- `StateDiff` from `types.ts`. -/
structure StateDiff where
  base_hash : String
  target_hash : String
  entries : List DiffEntry

/-- `Map.prototype.set` (and object property assignment) on a map modelled
as an insertion-ordered association list: overwrite in place when the key
already exists, append otherwise. -/
def mapSet (m : List (String × α)) (k : String) (v : α) : List (String × α) :=
  if (lookupKey k m).isSome then
    m.map (fun p => if p.1 = k then (k, v) else p)
  else m ++ [(k, v)]

/-- The in-memory state of a `PureTsRepository` instance.  The class's
private `headRef` field is omitted: it is declared but never read or
written by any method. -/
structure PureTsRepository where
  commits : List (String × StoredCommit)
  branches : List (String × String)
  detachedHash : Option String
  currentBranch : Option String

/-- A fresh repository, `new PureTsRepository()`: no commits, no branches,
no detached hash, `_currentBranch = "main"`. -/
def PureTsRepository.init : PureTsRepository := ⟨[], [], none, some "main"⟩

/-- `resolveHead()`: the current branch's tip (`?? null` when the branch
has no entry) when attached, the detached hash otherwise. -/
def PureTsRepository.resolveHead (r : PureTsRepository) : Option String :=
  match r.currentBranch with
  | some b => lookupKey b r.branches
  | none => r.detachedHash

/-- `JSON.stringify(state)` for the state record built in `commit`: the
literal key order of the object; `JSON.stringify` drops the
`undefined`-valued `metadata` property, matching `stateFields`. -/
def stringifyState (s : AgentState) : String :=
  stringifyJson (Json.obj (stateFields s))

/-- The commit-hash preimage:
`JSON.stringify({ tree_hash, parent_hashes, message, action_type, timestamp })`. -/
def commitHashInput (treeHash : String) (parent_hashes : List String)
    (message action_type : String) (now : Nat) : String :=
  stringifyJson (Json.obj
    [("tree_hash", Json.str treeHash),
     ("parent_hashes", Json.arr (parent_hashes.map Json.str)),
     ("message", Json.str message),
     ("action_type", Json.str action_type),
     ("timestamp", Json.str (toString now))])

/-- `PureTsRepository.commit`.  `parseJsonValue(JSON.stringify(v))` is the
identity on parsed JSON values, so the `memory_json` / `world_state_json`
parameters are modelled as the parsed values directly; `world_state ?? {}`
coerces a parsed `null` to the empty object; `cost ?? 0` defaults the cost;
`parentHash ? [parentHash] : []` treats the empty string as falsy; `now` is
the `new Date().toISOString()` instant of the call. -/
def PureTsRepository.commit (r : PureTsRepository) (now : Nat) (memory world_state : Json)
    (message action_type : String) (cost : Option Int) (metadata : Option Json) :
    String × PureTsRepository :=
  let parentHash := r.resolveHead
  let parent_hashes : List String :=
    match parentHash with
    | some p => if p = "" then [] else [p]
    | none => []
  let state : AgentState :=
    { memory := memory,
      world_state :=
        match world_state with
        | Json.null => Json.obj []
        | w => w,
      timestamp := now,
      cost := cost.getD 0,
      metadata := metadata }
  let treeHash := sha256Sync (stringifyState state)
  let hash := sha256Sync (commitHashInput treeHash parent_hashes message action_type now)
  let c : StoredCommit :=
    { hash := hash, tree_hash := treeHash, parent_hashes := parent_hashes,
      message := message, author := "default", timestamp := now,
      action_type := action_type, state := state }
  let commits := mapSet r.commits hash c
  match r.currentBranch with
  | some b => (hash, { r with commits := commits, branches := mapSet r.branches b hash })
  | none => (hash, { r with commits := commits, detachedHash := some hash })

/-- `PureTsRepository.branch(name, from?)`: the source is
`this.branches[from] ?? from` when `from` is given (the raw argument is
used verbatim when it names no branch, without checking that any commit
exists under it), else `resolveHead() ?? ""`; throws `"No commits yet"`
exactly when the resolved source is falsy; otherwise assigns
`this.branches[name] = sourceHash`, overwriting any existing branch. -/
def PureTsRepository.branch (r : PureTsRepository) (name : String) (fromRef : Option String) :
    Except String Unit × PureTsRepository :=
  let sourceHash : String :=
    match fromRef with
    | some f => (lookupKey f r.branches).getD f
    | none => r.resolveHead.getD ""
  if sourceHash = "" then (.error "No commits yet", r)
  else (.ok (), { r with branches := mapSet r.branches name sourceHash })

/-- `PureTsRepository.checkout(target)`: branch names resolve first and
attach HEAD (the attachment is performed before the tip commit is fetched,
so it persists even when the fetch throws); otherwise the target is tried
as a commit hash and detaches HEAD; otherwise `Ref not found`. -/
def PureTsRepository.checkout (r : PureTsRepository) (target : String) :
    Except String AgentState × PureTsRepository :=
  match lookupKey target r.branches with
  | some hash =>
    let r' := { r with currentBranch := some target, detachedHash := none }
    match lookupKey hash r'.commits with
    | none => (.error ("Object not found: " ++ hash), r')
    | some entry => (.ok entry.state, r')
  | none =>
    match lookupKey target r.commits with
    | some entry =>
      (.ok entry.state, { r with currentBranch := none, detachedHash := some target })
    | none => (.error ("Ref not found: " ++ target), r)

/-- `PureTsRepository.diff(hash1, hash2)`: fetch both commits (base first)
and diff their state records. -/
def PureTsRepository.diff (r : PureTsRepository) (hash1 hash2 : String) :
    Except String StateDiff :=
  match lookupKey hash1 r.commits with
  | none => .error ("Object not found: " ++ hash1)
  | some e1 =>
    match lookupKey hash2 r.commits with
    | none => .error ("Object not found: " ++ hash2)
    | some e2 => .ok ⟨hash1, hash2, stateDiff e1.state e2.state⟩

/-- `PureTsRepository.merge(branch, strategy)`.  `MergeStrategy.Theirs` is
the string `"theirs"` and `ActionType.Merge` is `"merge"`; every strategy
other than `"theirs"` (including `"ours"` and `"three_way"`) selects the
current branch's state. -/
def PureTsRepository.merge (r : PureTsRepository) (now : Nat) (branch strategy : String) :
    Except String String × PureTsRepository :=
  match lookupKey branch r.branches with
  | none => (.error ("Branch not found: " ++ branch), r)
  | some theirHash =>
    match lookupKey theirHash r.commits with
    | none => (.error ("Object not found: " ++ theirHash), r)
    | some theirEntry =>
      match r.resolveHead with
      | none => (.error "No commits on current branch", r)
      | some ourHash =>
        if ourHash = "" then (.error "No commits on current branch", r)
        else
          match lookupKey ourHash r.commits with
          | none => (.error ("Object not found: " ++ ourHash), r)
          | some ourEntry =>
            let mergedState :=
              if strategy = "theirs" then theirEntry.state else ourEntry.state
            let currentBranch := r.currentBranch.getD "HEAD"
            let step := r.commit now mergedState.memory mergedState.world_state
              ("merge branch '" ++ branch ++ "' into '" ++ currentBranch ++ "'")
              "merge" (some mergedState.cost) mergedState.metadata
            (.ok step.1, step.2)

/-- The BFS loop of `log`: `queue` / `visited` / `result` evolve exactly as
in the source's `while` loop.  `fuel` bounds the number of iterations;
`log` instantiates it with one unit per element that can ever be enqueued
(the start hash plus one per parent edge of the commits map, plus slack),
so the loop always ends by exhausting the queue or reaching the limit. -/
def bfsLog (commits : List (String × StoredCommit)) (lim : Nat) :
    Nat → List String → List String → List StoredCommit → List StoredCommit
  | 0, _, _, result => result
  | _+1, [], _, result => result
  | fuel+1, h :: rest, visited, result =>
    if lim ≤ result.length then result
    else if h ∈ visited then bfsLog commits lim fuel rest visited result
    else
      let visited' := h :: visited
      match lookupKey h commits with
      | none => bfsLog commits lim fuel rest visited' result
      | some entry =>
        bfsLog commits lim fuel
          (rest ++ entry.parent_hashes.filter (fun p => p ∉ visited')) visited'
          (result ++ [entry])

/-- One insertion step of a stable descending sort by `timestamp`.  The
source sorts with `(a, b) => getTime(b) - getTime(a)` using JavaScript's
stable `Array.prototype.sort`: strictly newer commits move to the front,
ties keep encounter order — exactly stable insertion with this test. -/
def insertByTsDesc (c : StoredCommit) : List StoredCommit → List StoredCommit
  | [] => [c]
  | x :: xs => if c.timestamp < x.timestamp then x :: insertByTsDesc c xs else c :: x :: xs

/-- Stable descending sort by `timestamp` (see `insertByTsDesc`). -/
def sortByTsDesc : List StoredCommit → List StoredCommit
  | [] => []
  | x :: xs => insertByTsDesc x (sortByTsDesc xs)

/-- `PureTsRepository.log(branch?, limit?)`: start from the named branch's
tip (or `resolveHead()`), return `[]` when the start is falsy, BFS with the
visited set, cap the result at `limit ?? 50`, and sort descending by
timestamp. -/
def PureTsRepository.log (r : PureTsRepository) (branch : Option String)
    (limit : Option Nat) : List StoredCommit :=
  let startHash : Option String :=
    match branch with
    | some b => lookupKey b r.branches
    | none => r.resolveHead
  match startHash with
  | none => []
  | some s =>
    if s = "" then []
    else
      let lim := limit.getD 50
      let fuel := 1 + r.commits.length +
        (r.commits.map (fun p => p.2.parent_hashes.length)).sum
      sortByTsDesc (bfsLog r.commits lim fuel [s] [] [])

/-- `PureTsRepository.revert(toHash)`: fetch the target commit, commit its
state's fields again (with a fresh timestamp `now`) under
`ActionType.Rollback = "rollback"` and the message `"revert to "` plus the
first eight characters of the hash, and return the target's stored state. -/
def PureTsRepository.revert (r : PureTsRepository) (now : Nat) (toHash : String) :
    Except String AgentState × PureTsRepository :=
  match lookupKey toHash r.commits with
  | none => (.error ("Object not found: " ++ toHash), r)
  | some entry =>
    let step := r.commit now entry.state.memory entry.state.world_state
      ("revert to " ++ toHash.take 8) "rollback" (some entry.state.cost)
      entry.state.metadata
    (.ok entry.state, step.2)

/-- `PureTsRepository.getState(hash)`. -/
def PureTsRepository.getState (r : PureTsRepository) (hash : String) :
    Except String AgentState :=
  match lookupKey hash r.commits with
  | none => .error ("Object not found: " ++ hash)
  | some entry => .ok entry.state

/-- `head()`. -/
def PureTsRepository.head (r : PureTsRepository) : Option String := r.resolveHead

/-- `listBranches()`: `Object.keys(this.branches)`. -/
def PureTsRepository.listBranches (r : PureTsRepository) : List String :=
  r.branches.map Prod.fst

theorem lookupKey_cons (k k1 : String) (v1 : α) (tl : List (String × α)) :
    lookupKey k ((k1, v1) :: tl) = if k = k1 then some v1 else lookupKey k tl := rfl

theorem lookupKey_map_overwrite_self {m : List (String × α)} {k : String} (v : α)
    (h : (lookupKey k m).isSome) :
    lookupKey k (m.map (fun p => if p.1 = k then (k, v) else p)) = some v := by
  induction m with
  | nil => simp [lookupKey] at h
  | cons p tl ih =>
    obtain ⟨k1, v1⟩ := p
    by_cases hk : k1 = k
    · subst hk
      simp [lookupKey_cons]
    · have hk' : ¬ k = k1 := fun he => hk he.symm
      rw [lookupKey_cons, if_neg hk'] at h
      simp only [List.map_cons, if_neg hk]
      rw [lookupKey_cons, if_neg hk']
      exact ih h

theorem lookupKey_map_overwrite_ne {m : List (String × α)} {k k' : String} {v : α}
    (hne : k' ≠ k) :
    lookupKey k' (m.map (fun p => if p.1 = k then (k, v) else p)) = lookupKey k' m := by
  induction m with
  | nil => rfl
  | cons p tl ih =>
    obtain ⟨k1, v1⟩ := p
    by_cases hk : k1 = k
    · subst hk
      have hmap : ((k1, v1) :: tl).map (fun p => if p.1 = k1 then (k1, v) else p) =
          (k1, v) :: tl.map (fun p => if p.1 = k1 then (k1, v) else p) := by
        simp
      rw [hmap, lookupKey_cons, lookupKey_cons, if_neg hne, if_neg hne]
      exact ih
    · have hmap : ((k1, v1) :: tl).map (fun p => if p.1 = k then (k, v) else p) =
          (k1, v1) :: tl.map (fun p => if p.1 = k then (k, v) else p) := by
        simp [hk]
      rw [hmap, lookupKey_cons, lookupKey_cons]
      by_cases hk' : k' = k1
      · rw [if_pos hk', if_pos hk']
      · rw [if_neg hk', if_neg hk']
        exact ih

theorem lookupKey_append_single_self {m : List (String × α)} {k : String} (v : α)
    (h : lookupKey k m = none) : lookupKey k (m ++ [(k, v)]) = some v := by
  induction m with
  | nil => simp [lookupKey]
  | cons p tl ih =>
    obtain ⟨k1, v1⟩ := p
    rw [lookupKey_cons] at h
    by_cases hk : k = k1
    · rw [if_pos hk] at h
      exact absurd h (by simp)
    · rw [if_neg hk] at h
      rw [List.cons_append, lookupKey_cons, if_neg hk]
      exact ih h

theorem lookupKey_append_single_ne {m : List (String × α)} {k k' : String} {v : α}
    (hne : k' ≠ k) : lookupKey k' (m ++ [(k, v)]) = lookupKey k' m := by
  induction m with
  | nil => simp [lookupKey, hne]
  | cons p tl ih =>
    obtain ⟨k1, v1⟩ := p
    rw [List.cons_append, lookupKey_cons, lookupKey_cons]
    by_cases hk : k' = k1
    · rw [if_pos hk, if_pos hk]
    · rw [if_neg hk, if_neg hk]
      exact ih

theorem lookupKey_mapSet_self (m : List (String × α)) (k : String) (v : α) :
    lookupKey k (mapSet m k v) = some v := by
  unfold mapSet
  by_cases h : (lookupKey k m).isSome
  · rw [if_pos h]
    exact lookupKey_map_overwrite_self v h
  · rw [if_neg h]
    exact lookupKey_append_single_self v (Option.not_isSome_iff_eq_none.mp h)

theorem lookupKey_mapSet_ne (m : List (String × α)) {k k' : String} (v : α) (hne : k' ≠ k) :
    lookupKey k' (mapSet m k v) = lookupKey k' m := by
  unfold mapSet
  by_cases h : (lookupKey k m).isSome
  · rw [if_pos h]
    exact lookupKey_map_overwrite_ne hne
  · rw [if_neg h]
    exact lookupKey_append_single_ne hne

/-- The state value built by `commit` from its arguments at clock `now`. -/
def commitState (now : Nat) (memory world_state : Json) (cost : Option Int)
    (metadata : Option Json) : AgentState :=
  { memory := memory,
    world_state :=
      match world_state with
      | Json.null => Json.obj []
      | w => w,
    timestamp := now,
    cost := cost.getD 0,
    metadata := metadata }

/-- The parent list built by `commit`: `parentHash ? [parentHash] : []`. -/
def commitParents (r : PureTsRepository) : List String :=
  match r.resolveHead with
  | some p => if p = "" then [] else [p]
  | none => []

/-- The tree hash computed by one `commit` call. -/
def commitTreeHash (now : Nat) (memory world_state : Json) (cost : Option Int)
    (metadata : Option Json) : String :=
  sha256Sync (stringifyState (commitState now memory world_state cost metadata))

/-- The commit hash computed by one `commit` call. -/
def commitNewHash (r : PureTsRepository) (now : Nat) (memory world_state : Json)
    (message action_type : String) (cost : Option Int) (metadata : Option Json) : String :=
  sha256Sync (commitHashInput (commitTreeHash now memory world_state cost metadata)
    (commitParents r) message action_type now)

/-- The record stored in the commits map by one `commit` call. -/
def commitRecord (r : PureTsRepository) (now : Nat) (memory world_state : Json)
    (message action_type : String) (cost : Option Int) (metadata : Option Json) :
    StoredCommit :=
  { hash := commitNewHash r now memory world_state message action_type cost metadata,
    tree_hash := commitTreeHash now memory world_state cost metadata,
    parent_hashes := commitParents r,
    message := message, author := "default", timestamp := now,
    action_type := action_type,
    state := commitState now memory world_state cost metadata }

/-- One `commit` call written out as an explicit pair (definitional
unfolding of the method body). -/
theorem commit_eq (r : PureTsRepository) (now : Nat) (memory world_state : Json)
    (message action_type : String) (cost : Option Int) (metadata : Option Json) :
    r.commit now memory world_state message action_type cost metadata =
      (commitNewHash r now memory world_state message action_type cost metadata,
       match r.currentBranch with
       | some b =>
         { commits := mapSet r.commits
             (commitNewHash r now memory world_state message action_type cost metadata)
             (commitRecord r now memory world_state message action_type cost metadata),
           branches := mapSet r.branches b
             (commitNewHash r now memory world_state message action_type cost metadata),
           detachedHash := r.detachedHash,
           currentBranch := r.currentBranch }
       | none =>
         { commits := mapSet r.commits
             (commitNewHash r now memory world_state message action_type cost metadata)
             (commitRecord r now memory world_state message action_type cost metadata),
           branches := r.branches,
           detachedHash :=
             some (commitNewHash r now memory world_state message action_type cost metadata),
           currentBranch := r.currentBranch }) := by
  cases hcb : r.currentBranch with
  | some b =>
    unfold PureTsRepository.commit
    rw [hcb]
    rfl
  | none =>
    unfold PureTsRepository.commit
    rw [hcb]
    rfl

/-- Full characterization of one `commit` call: the returned hash maps to
the newly stored commit (with the documented fields, parents and state),
every other key of the commits map is untouched, and the head bookkeeping
advances the current branch when attached, or the detached hash when
detached. -/
theorem commit_spec (r : PureTsRepository) (now : Nat) (memory world_state : Json)
    (message action_type : String) (cost : Option Int) (metadata : Option Json) :
    ∃ c : StoredCommit,
      lookupKey (r.commit now memory world_state message action_type cost metadata).1
        (r.commit now memory world_state message action_type cost metadata).2.commits =
          some c ∧
      c.hash = (r.commit now memory world_state message action_type cost metadata).1 ∧
      c.parent_hashes = commitParents r ∧
      c.message = message ∧
      c.author = "default" ∧
      c.timestamp = now ∧
      c.action_type = action_type ∧
      c.state = commitState now memory world_state cost metadata ∧
      (∀ k, k ≠ (r.commit now memory world_state message action_type cost metadata).1 →
        lookupKey k
            (r.commit now memory world_state message action_type cost metadata).2.commits =
          lookupKey k r.commits) ∧
      (match r.currentBranch with
       | some b =>
          (r.commit now memory world_state message action_type cost metadata).2.branches =
            mapSet r.branches b
              (r.commit now memory world_state message action_type cost metadata).1 ∧
          (r.commit now memory world_state message action_type cost metadata).2.detachedHash =
            r.detachedHash
       | none =>
          (r.commit now memory world_state message action_type cost metadata).2.branches =
            r.branches ∧
          (r.commit now memory world_state message action_type cost metadata).2.detachedHash =
            some (r.commit now memory world_state message action_type cost metadata).1) := by
  refine ⟨commitRecord r now memory world_state message action_type cost metadata, ?_⟩
  rw [commit_eq]
  cases hcb : r.currentBranch with
  | some b =>
    refine ⟨lookupKey_mapSet_self _ _ _, rfl, rfl, rfl, rfl, rfl, rfl, rfl, ?_, rfl, rfl⟩
    intro k hk
    exact lookupKey_mapSet_ne _ _ hk
  | none =>
    refine ⟨lookupKey_mapSet_self _ _ _, rfl, rfl, rfl, rfl, rfl, rfl, rfl, ?_, rfl, rfl⟩
    intro k hk
    exact lookupKey_mapSet_ne _ _ hk

/-- Scenario repository: fresh. -/
def repoA0 : PureTsRepository := PureTsRepository.init

/-- Scenario: first commit (clock 1, memory `{v:1}`) on `main`. -/
def stepA1 : String × PureTsRepository :=
  repoA0.commit 1 (Json.obj [("v", Json.num 1)]) (Json.obj []) "one" "checkpoint" none none

def hA1 : String := stepA1.1

def repoA1 : PureTsRepository := stepA1.2

/-- Scenario: second commit (clock 2, memory `{v:2}`) on `main`. -/
def stepA2 : String × PureTsRepository :=
  repoA1.commit 2 (Json.obj [("v", Json.num 2)]) (Json.obj []) "two" "checkpoint" none none

def hA2 : String := stepA2.1

def repoA2 : PureTsRepository := stepA2.2

/-- Scenario: checkout of the first commit's hash, detaching HEAD. -/
def repoA3 : PureTsRepository := (repoA2.checkout hA1).2

/-- Scenario: a commit (clock 3) made in detached-HEAD state. -/
def stepA4 : String × PureTsRepository :=
  repoA3.commit 3 (Json.obj [("v", Json.num 3)]) (Json.obj []) "three" "checkpoint" none none

def hA4 : String := stepA4.1

def repoA4 : PureTsRepository := stepA4.2

/-- The commit stored under `h`, with a dummy default for absent keys (used
only where the key is known to be present). -/
def entryAt (r : PureTsRepository) (h : String) : StoredCommit :=
  (lookupKey h r.commits).getD
    ⟨⟨"", "", [], "", "", 0, ""⟩, ⟨Json.null, Json.null, 0, 0, none⟩⟩

/-- C3 counterexample: in the scenario above, the repository is in
detached-HEAD state (current branch `null`, detached hash `hA1`), and the
commit made there gets `[hA1]` — one parent, the detached hash — not the
empty parent list the claim asserts for detached commits. -/
theorem commit_detached_parent_counterexample :
    repoA3.currentBranch = none ∧
    repoA3.detachedHash = some hA1 ∧
    (lookupKey hA4 repoA4.commits).map (fun c => c.parent_hashes) = some [hA1] ∧
    (lookupKey hA4 repoA4.commits).map (fun c => c.parent_hashes.length) = some 1 ∧
    hA1.length = 64 :=
  ⟨rfl, rfl, rfl, rfl, rfl⟩

/-- C3 (amended): the new commit's `parent_hashes` is `[h]` whenever
`resolveHead()` returns a non-empty `h` — the current branch's tip when
HEAD is attached and the branch has an entry, or the detached hash when
HEAD is detached — and `[]` only when `resolveHead()` is `null`; in
particular a detached-HEAD commit has the detached hash as its single
parent. -/
theorem commit_parent_hashes_spec (r : PureTsRepository) (now : Nat)
    (memory world_state : Json) (message action_type : String) (cost : Option Int)
    (metadata : Option Json) :
    ∃ c : StoredCommit,
      lookupKey (r.commit now memory world_state message action_type cost metadata).1
        (r.commit now memory world_state message action_type cost metadata).2.commits =
          some c ∧
      c.parent_hashes = commitParents r ∧
      (∀ p, r.resolveHead = some p → p ≠ "" → c.parent_hashes = [p]) ∧
      (r.resolveHead = none → c.parent_hashes = []) ∧
      (∀ d, r.currentBranch = none → r.detachedHash = some d → d ≠ "" →
        c.parent_hashes = [d]) := by
  obtain ⟨c, h1, _, h3, -⟩ :=
    commit_spec r now memory world_state message action_type cost metadata
  have hsome : ∀ p, r.resolveHead = some p → p ≠ "" → c.parent_hashes = [p] := by
    intro p hp hne
    rw [h3]
    unfold commitParents
    rw [hp]
    simp [hne]
  refine ⟨c, h1, h3, hsome, ?_, ?_⟩
  · intro hp
    rw [h3]
    unfold commitParents
    rw [hp]
  · intro d hcb hd hne
    have hp : r.resolveHead = some d := by
      unfold PureTsRepository.resolveHead
      rw [hcb, hd]
    exact hsome d hp hne

/-- Witness for C3: the amended parent rule applied to the concrete
detached-HEAD repository of the scenario. -/
theorem commit_parent_hashes_spec_witness :
    ∃ c : StoredCommit,
      lookupKey stepA4.1 stepA4.2.commits = some c ∧ c.parent_hashes = [hA1] := by
  obtain ⟨c, h1, -, hsome, -, -⟩ :=
    commit_parent_hashes_spec repoA3 3 (Json.obj [("v", Json.num 3)]) (Json.obj [])
      "three" "checkpoint" none none
  exact ⟨c, h1, hsome hA1 (by rfl) (by decide)⟩

/-- C5 counterexample: `branch` raises no `AlreadyExists` — creating
`"main"` again succeeds although that branch exists — and no `NotFound` —
branching from the unresolved source `"zzzz"` (no branch and no stored
commit of that name) succeeds and stores the bogus string as the tip. -/
theorem branch_error_handling_counterexample :
    (lookupKey "main" repoA2.branches).isSome = true ∧
    (repoA2.branch "main" none).1 = .ok () ∧
    lookupKey "zzzz" repoA2.branches = none ∧
    lookupKey "zzzz" repoA2.commits = none ∧
    (repoA2.branch "ghost" (some "zzzz")).1 = .ok () ∧
    lookupKey "ghost" (repoA2.branch "ghost" (some "zzzz")).2.branches = some "zzzz" :=
  ⟨rfl, rfl, rfl, rfl, rfl, rfl⟩

/-- C5 (amended): `branch(name, from?)` resolves the source as
`branches[from] ?? from` (using `from` verbatim, unvalidated, when it names
no branch) or `resolveHead() ?? ""`; it fails only with `"No commits yet"`
when the resolved source is the empty string, never with `AlreadyExists`
(an existing `name` is silently overwritten) and never with `NotFound` on a
source that is no stored commit. -/
theorem branch_eq_some (r : PureTsRepository) (name f : String) :
    r.branch name (some f) =
      (if (lookupKey f r.branches).getD f = "" then (.error "No commits yet", r)
       else (.ok (),
         { r with branches := mapSet r.branches name ((lookupKey f r.branches).getD f) })) :=
  rfl

theorem branch_eq_none (r : PureTsRepository) (name : String) :
    r.branch name none =
      (if r.resolveHead.getD "" = "" then (.error "No commits yet", r)
       else (.ok (),
         { r with branches := mapSet r.branches name (r.resolveHead.getD "") })) :=
  rfl

theorem branch_no_validation_spec (r : PureTsRepository) (name : String) :
    (∀ f src, lookupKey f r.branches = some src → src ≠ "" →
      (r.branch name (some f)).1 = .ok () ∧
      lookupKey name (r.branch name (some f)).2.branches = some src) ∧
    (∀ f, lookupKey f r.branches = none → f ≠ "" →
      (r.branch name (some f)).1 = .ok () ∧
      lookupKey name (r.branch name (some f)).2.branches = some f) ∧
    (∀ src, r.resolveHead = some src → src ≠ "" →
      (r.branch name none).1 = .ok () ∧
      lookupKey name (r.branch name none).2.branches = some src) ∧
    (r.resolveHead = none →
      (r.branch name none).1 = .error "No commits yet" ∧ (r.branch name none).2 = r) := by
  refine ⟨?_, ?_, ?_, ?_⟩
  · intro f src hf hne
    rw [branch_eq_some, hf]
    simp only [Option.getD_some, if_neg hne]
    exact ⟨trivial, lookupKey_mapSet_self _ _ _⟩
  · intro f hf hne
    rw [branch_eq_some, hf]
    simp only [Option.getD_none, if_neg hne]
    exact ⟨trivial, lookupKey_mapSet_self _ _ _⟩
  · intro src hsrc hne
    rw [branch_eq_none, hsrc]
    simp only [Option.getD_some, if_neg hne]
    exact ⟨trivial, lookupKey_mapSet_self _ _ _⟩
  · intro hnone
    rw [branch_eq_none, hnone]
    simp only [Option.getD_none, if_pos rfl]
    exact ⟨rfl, rfl⟩

/-- Witness for C5: branching `"b"` off the existing branch `"main"` of the
concrete scenario repository succeeds and points `"b"` at `main`'s tip. -/
theorem branch_no_validation_spec_witness :
    (repoA2.branch "b" (some "main")).1 = .ok () ∧
    lookupKey "b" (repoA2.branch "b" (some "main")).2.branches = some hA2 :=
  (branch_no_validation_spec repoA2 "b").1 "main" hA2 rfl (by decide)

/-- One successful `merge` call written out: it is exactly a `commit` of the
selected side's state fields on the current repository, wrapped in `.ok`. -/
theorem merge_eq (r : PureTsRepository) (now : Nat) (branch strategy : String)
    {theirHash ourHash : String} {theirEntry ourEntry : StoredCommit}
    (hbr : lookupKey branch r.branches = some theirHash)
    (hth : lookupKey theirHash r.commits = some theirEntry)
    (hoh : r.resolveHead = some ourHash)
    (hne : ourHash ≠ "")
    (hoe : lookupKey ourHash r.commits = some ourEntry) :
    r.merge now branch strategy =
      (Except.ok (r.commit now
          (if strategy = "theirs" then theirEntry.state else ourEntry.state).memory
          (if strategy = "theirs" then theirEntry.state else ourEntry.state).world_state
          ("merge branch '" ++ branch ++ "' into '" ++ r.currentBranch.getD "HEAD" ++ "'")
          "merge"
          (some (if strategy = "theirs" then theirEntry.state else ourEntry.state).cost)
          (if strategy = "theirs" then theirEntry.state else ourEntry.state).metadata).1,
       (r.commit now
          (if strategy = "theirs" then theirEntry.state else ourEntry.state).memory
          (if strategy = "theirs" then theirEntry.state else ourEntry.state).world_state
          ("merge branch '" ++ branch ++ "' into '" ++ r.currentBranch.getD "HEAD" ++ "'")
          "merge"
          (some (if strategy = "theirs" then theirEntry.state else ourEntry.state).cost)
          (if strategy = "theirs" then theirEntry.state else ourEntry.state).metadata).2) := by
  unfold PureTsRepository.merge
  simp only [hbr, hth, hoh]
  rw [if_neg hne]
  simp only [hoe]

/-- C1 (amended): a successful `merge(branch, strategy)` stores a new commit
whose `action_type` is `"merge"` but whose `parent_hashes` is the single
entry `[ours_head]` — the merge commit is created through the ordinary
`commit` path, which records only `resolveHead()` as parent, so the merged
branch's tip is never recorded as a second parent. -/
theorem merge_commit_parents_spec (r : PureTsRepository) (now : Nat)
    (branch strategy : String) {theirHash ourHash : String}
    {theirEntry ourEntry : StoredCommit}
    (hbr : lookupKey branch r.branches = some theirHash)
    (hth : lookupKey theirHash r.commits = some theirEntry)
    (hoh : r.resolveHead = some ourHash)
    (hne : ourHash ≠ "")
    (hoe : lookupKey ourHash r.commits = some ourEntry) :
    ∃ c : StoredCommit,
      (r.merge now branch strategy).1 = .ok c.hash ∧
      lookupKey c.hash (r.merge now branch strategy).2.commits = some c ∧
      c.action_type = "merge" ∧
      c.parent_hashes = [ourHash] := by
  rw [merge_eq r now branch strategy hbr hth hoh hne hoe]
  obtain ⟨c, h1, hhash, hpar, -, -, -, hact, -, -⟩ :=
    commit_spec r now
      (if strategy = "theirs" then theirEntry.state else ourEntry.state).memory
      (if strategy = "theirs" then theirEntry.state else ourEntry.state).world_state
      ("merge branch '" ++ branch ++ "' into '" ++ r.currentBranch.getD "HEAD" ++ "'")
      "merge"
      (some (if strategy = "theirs" then theirEntry.state else ourEntry.state).cost)
      (if strategy = "theirs" then theirEntry.state else ourEntry.state).metadata
  refine ⟨c, ?_, ?_, hact, ?_⟩
  · rw [hhash]
  · rw [hhash]
    exact h1
  · rw [hpar]
    unfold commitParents
    rw [hoh]
    simp [hne]

/-- C2 (amended): the merged state is the current branch's state verbatim
for every strategy other than `"theirs"` — including `"three_way"`, for
which the fallback performs no three-way reconciliation at all — and the
incoming branch's state verbatim for `"theirs"`; the merge commit stores
those fields with a fresh timestamp. -/
theorem merge_strategy_state_spec (r : PureTsRepository) (now : Nat)
    (branch strategy : String) {theirHash ourHash : String}
    {theirEntry ourEntry : StoredCommit}
    (hbr : lookupKey branch r.branches = some theirHash)
    (hth : lookupKey theirHash r.commits = some theirEntry)
    (hoh : r.resolveHead = some ourHash)
    (hne : ourHash ≠ "")
    (hoe : lookupKey ourHash r.commits = some ourEntry) :
    ∃ c : StoredCommit,
      (r.merge now branch strategy).1 = .ok c.hash ∧
      lookupKey c.hash (r.merge now branch strategy).2.commits = some c ∧
      c.state.memory =
        (if strategy = "theirs" then theirEntry.state else ourEntry.state).memory ∧
      c.state.cost =
        (if strategy = "theirs" then theirEntry.state else ourEntry.state).cost ∧
      c.state.metadata =
        (if strategy = "theirs" then theirEntry.state else ourEntry.state).metadata ∧
      c.state.world_state =
        (match (if strategy = "theirs" then theirEntry.state else ourEntry.state).world_state
         with
         | Json.null => Json.obj []
         | w => w) ∧
      c.state.timestamp = now := by
  rw [merge_eq r now branch strategy hbr hth hoh hne hoe]
  obtain ⟨c, h1, hhash, -, -, -, -, -, hstate, -, -⟩ :=
    commit_spec r now
      (if strategy = "theirs" then theirEntry.state else ourEntry.state).memory
      (if strategy = "theirs" then theirEntry.state else ourEntry.state).world_state
      ("merge branch '" ++ branch ++ "' into '" ++ r.currentBranch.getD "HEAD" ++ "'")
      "merge"
      (some (if strategy = "theirs" then theirEntry.state else ourEntry.state).cost)
      (if strategy = "theirs" then theirEntry.state else ourEntry.state).metadata
  refine ⟨c, by rw [hhash], by rw [hhash]; exact h1, ?_, ?_, ?_, ?_, ?_⟩ <;>
    rw [hstate] <;> rfl

/-- Scenario (spec end-to-end scenario 3): base commit `{v:0}` on `main`. -/
def stepB1 : String × PureTsRepository :=
  PureTsRepository.init.commit 1 (Json.obj [("v", Json.num 0)]) (Json.obj [])
    "base" "checkpoint" none none

def hB1 : String := stepB1.1

def repoB1 : PureTsRepository := stepB1.2

/-- Scenario: `branch("feature")` from HEAD. -/
def repoB2 : PureTsRepository := (repoB1.branch "feature" none).2

/-- Scenario: `checkout("feature")`. -/
def repoB3 : PureTsRepository := (repoB2.checkout "feature").2

/-- Scenario: commit `{v:2}` on `feature` (clock 2). -/
def stepB4 : String × PureTsRepository :=
  repoB3.commit 2 (Json.obj [("v", Json.num 2)]) (Json.obj [])
    "feature work" "checkpoint" none none

def hB4 : String := stepB4.1

def repoB4 : PureTsRepository := stepB4.2

/-- Scenario: `checkout("main")`. -/
def repoB5 : PureTsRepository := (repoB4.checkout "main").2

/-- Scenario: commit `{v:1}` on `main` (clock 3). -/
def stepB6 : String × PureTsRepository :=
  repoB5.commit 3 (Json.obj [("v", Json.num 1)]) (Json.obj [])
    "main work" "checkpoint" none none

def hB6 : String := stepB6.1

def repoB6 : PureTsRepository := stepB6.2

/-- Scenario: `merge("feature", Ours)` at clock 4. -/
def stepB7 : Except String String × PureTsRepository := repoB6.merge 4 "feature" "ours"

/-- The hash returned by the scenario merge. -/
def hB7 : String :=
  match stepB7.1 with
  | .ok h => h
  | .error _ => ""

def repoB7 : PureTsRepository := stepB7.2

/-- C1 counterexample: in the spec's own merge scenario (branch `feature`
with `{v:2}`, `main` advanced to `{v:1}`, `merge(feature, Ours)`), the
merge succeeds but the created commit has the single parent `[hB6]` (the
pre-merge `main` tip) — `parent_hashes.length` is `1`, not the claimed two
entries `[ours_head, theirs_head]`. -/
theorem merge_two_parents_counterexample :
    stepB7.1 = .ok hB7 ∧
    (lookupKey hB7 repoB7.commits).map (fun c => c.parent_hashes) = some [hB6] ∧
    (lookupKey hB7 repoB7.commits).map (fun c => c.parent_hashes.length) = some 1 ∧
    (lookupKey hB7 repoB7.commits).map (fun c => c.action_type) = some "merge" ∧
    (lookupKey hB4 repoB6.commits).isSome = true :=
  ⟨rfl, rfl, rfl, rfl, rfl⟩

/-- Witness for C1: the amended single-parent rule applied to the concrete
scenario merge. -/
theorem merge_commit_parents_spec_witness :
    ∃ c : StoredCommit,
      (repoB6.merge 4 "feature" "ours").1 = .ok c.hash ∧
      lookupKey c.hash (repoB6.merge 4 "feature" "ours").2.commits = some c ∧
      c.action_type = "merge" ∧
      c.parent_hashes = [hB6] :=
  @merge_commit_parents_spec repoB6 4 "feature" "ours" hB4 hB6
    (entryAt repoB6 hB4) (entryAt repoB6 hB6)
    rfl rfl rfl (by decide) rfl

/-- Scenario for the ThreeWay claim: base commit `{v:0}` on `main`
(clock 1). -/
def stepD1 : String × PureTsRepository :=
  PureTsRepository.init.commit 1 (Json.obj [("v", Json.num 0)]) (Json.obj [])
    "base" "checkpoint" none none

def hD1 : String := stepD1.1

def repoD1 : PureTsRepository := stepD1.2

/-- Scenario: branch `feature` at the base, check it out, commit `{v:2}`
(clock 2), and return to `main` — so `main`'s tip (ours) IS the base
commit, and `feature`'s tip (theirs) is `{v:2}`. -/
def repoD2 : PureTsRepository := (repoD1.branch "feature" none).2

def repoD3 : PureTsRepository := (repoD2.checkout "feature").2

def stepD4 : String × PureTsRepository :=
  repoD3.commit 2 (Json.obj [("v", Json.num 2)]) (Json.obj [])
    "feature work" "checkpoint" none none

def hD4 : String := stepD4.1

def repoD4 : PureTsRepository := stepD4.2

def repoD5 : PureTsRepository := (repoD4.checkout "main").2

/-- Scenario: `merge("feature", ThreeWay)` (`"three_way"`) at clock 3, with
ours = base `{v:0}` and theirs = `{v:2}`. -/
def stepD6 : Except String String × PureTsRepository := repoD5.merge 3 "feature" "three_way"

def hD6 : String :=
  match stepD6.1 with
  | .ok h => h
  | .error _ => ""

def repoD6 : PureTsRepository := stepD6.2

/-- C2 counterexample: with ours equal to the base (`main` still at the base
commit `{v:0}`) and theirs changed to `{v:2}`, a ThreeWay merge must —
according to the claim — produce theirs, `{v:2}`; the fallback instead
stores the merged memory `{v:0}` (ours), which differs from theirs. -/
theorem merge_three_way_counterexample :
    repoD5.resolveHead = some hD1 ∧
    (lookupKey hD1 repoD5.commits).map (fun c => c.state.memory) =
      some (Json.obj [("v", Json.num 0)]) ∧
    (lookupKey hD4 repoD5.commits).map (fun c => c.state.memory) =
      some (Json.obj [("v", Json.num 2)]) ∧
    stepD6.1 = .ok hD6 ∧
    (lookupKey hD6 repoD6.commits).map (fun c => c.state.memory) =
      some (Json.obj [("v", Json.num 0)]) ∧
    (Json.obj [("v", Json.num 0)]) ≠ (Json.obj [("v", Json.num 2)]) :=
  ⟨rfl, rfl, rfl, rfl, rfl, by simp⟩

/-- Witness for C2: the amended strategy rule applied at the concrete
ThreeWay scenario merge. -/
theorem merge_strategy_state_spec_witness :
    ∃ c : StoredCommit,
      (repoD5.merge 3 "feature" "three_way").1 = .ok c.hash ∧
      lookupKey c.hash (repoD5.merge 3 "feature" "three_way").2.commits = some c ∧
      c.state.memory =
        (if "three_way" = "theirs" then (entryAt repoD5 hD4).state
         else (entryAt repoD5 hD1).state).memory ∧
      c.state.cost =
        (if "three_way" = "theirs" then (entryAt repoD5 hD4).state
         else (entryAt repoD5 hD1).state).cost ∧
      c.state.metadata =
        (if "three_way" = "theirs" then (entryAt repoD5 hD4).state
         else (entryAt repoD5 hD1).state).metadata ∧
      c.state.world_state =
        (match (if "three_way" = "theirs" then (entryAt repoD5 hD4).state
                else (entryAt repoD5 hD1).state).world_state with
         | Json.null => Json.obj []
         | w => w) ∧
      c.state.timestamp = 3 :=
  @merge_strategy_state_spec repoD5 3 "feature" "three_way" hD4 hD1
    (entryAt repoD5 hD4) (entryAt repoD5 hD1)
    rfl rfl rfl (by decide) rfl

/-- One `revert` call on a stored target written out: it returns the
target's state and performs an ordinary `commit` of the target state's
fields with a `"rollback"` action type and a fresh clock. -/
theorem revert_eq (r : PureTsRepository) (now : Nat) (toHash : String)
    {entry : StoredCommit} (hent : lookupKey toHash r.commits = some entry) :
    r.revert now toHash =
      (Except.ok entry.state,
       (r.commit now entry.state.memory entry.state.world_state
          ("revert to " ++ toHash.take 8) "rollback" (some entry.state.cost)
          entry.state.metadata).2) := by
  unfold PureTsRepository.revert
  simp only [hent]

/-- C4 (amended): `revert(hash)` on a stored target returns the target's
stored state unchanged and creates one new commit through the ordinary
commit path: its state carries the target's `memory`, `world_state`
(coerced from `null` to `{}` as `commit` always does), `cost` and
`metadata` but a fresh timestamp; its parents are `[resolveHead()]` (the
pre-revert HEAD, not the target); its `action_type` is `"rollback"`; every
commit stored under a key other than the new hash is untouched; branch refs
other than the current branch are untouched, while the current branch — when
attached — advances to the new commit. -/
theorem revert_spec (r : PureTsRepository) (now : Nat) (toHash : String)
    {entry : StoredCommit} (hent : lookupKey toHash r.commits = some entry) :
    (r.revert now toHash).1 = .ok entry.state ∧
    ∃ c : StoredCommit,
      lookupKey c.hash (r.revert now toHash).2.commits = some c ∧
      c.action_type = "rollback" ∧
      c.parent_hashes = commitParents r ∧
      (∀ p, r.resolveHead = some p → p ≠ "" → c.parent_hashes = [p]) ∧
      c.state.memory = entry.state.memory ∧
      c.state.world_state =
        (match entry.state.world_state with
         | Json.null => Json.obj []
         | w => w) ∧
      c.state.cost = entry.state.cost ∧
      c.state.metadata = entry.state.metadata ∧
      c.state.timestamp = now ∧
      (∀ k, k ≠ c.hash → lookupKey k (r.revert now toHash).2.commits = lookupKey k r.commits) ∧
      (∀ b, r.currentBranch ≠ some b →
        lookupKey b (r.revert now toHash).2.branches = lookupKey b r.branches) ∧
      (∀ b, r.currentBranch = some b →
        lookupKey b (r.revert now toHash).2.branches = some c.hash) := by
  rw [revert_eq r now toHash hent]
  obtain ⟨c, h1, hhash, hpar, -, -, -, hact, hstate, hpres, hbranch⟩ :=
    commit_spec r now entry.state.memory entry.state.world_state
      ("revert to " ++ toHash.take 8) "rollback" (some entry.state.cost)
      entry.state.metadata
  refine ⟨rfl, c, by rw [hhash]; exact h1, hact, hpar, ?_, ?_, ?_, ?_, ?_, ?_, ?_, ?_, ?_⟩
  · intro p hp hne
    rw [hpar]
    unfold commitParents
    rw [hp]
    simp [hne]
  · rw [hstate]
    rfl
  · rw [hstate]
    rfl
  · rw [hstate]
    rfl
  · rw [hstate]
    rfl
  · rw [hstate]
    rfl
  · intro k hk
    rw [hhash] at hk
    exact hpres k hk
  · intro b hb
    cases hcb : r.currentBranch with
    | some b0 =>
      rw [hcb] at hbranch hb
      have hbne : b ≠ b0 := by
        intro he
        exact hb (by rw [he])
      rw [hbranch.1]
      exact lookupKey_mapSet_ne _ _ hbne
    | none =>
      rw [hcb] at hbranch
      rw [hbranch.1]
  · intro b hb
    cases hcb : r.currentBranch with
    | some b0 =>
      rw [hcb] at hbranch hb
      cases hb
      rw [hbranch.1, hhash]
      exact lookupKey_mapSet_self _ _ _
    | none =>
      rw [hcb] at hb
      exact absurd hb (by simp)

/-- Scenario: `revert` back to the first commit at clock 3, on the
two-commit `main` repository. -/
def stepA5 : Except String AgentState × PureTsRepository := repoA2.revert 3 hA1

def repoA5 : PureTsRepository := stepA5.2

/-- C4 counterexample: reverting to the first commit returns that state,
but (a) the new commit's state carries the fresh clock 3, not the target
state's clock 1 — so its state blob does not equal the target's state — and
(b) the previously existing `main` branch ref is advanced away from `hA2`,
so not every previously existing branch ref is left unchanged. -/
theorem revert_unchanged_counterexample :
    (stepA5.1.map (fun s => s.timestamp)) = .ok 1 ∧
    lookupKey "main" repoA2.branches = some hA2 ∧
    (lookupKey "main" repoA5.branches ≠ some hA2) ∧
    ((lookupKey "main" repoA5.branches).bind
        (fun h => (lookupKey h repoA5.commits).map (fun c => c.state.timestamp))) = some 3 ∧
    (lookupKey hA1 repoA2.commits).map (fun c => c.state.timestamp) = some 1 :=
  ⟨rfl, rfl, by decide, rfl, rfl⟩

/-- Witness for C4: the amended revert rule applied at the concrete
scenario. -/
theorem revert_spec_witness :
    (repoA2.revert 3 hA1).1 = .ok (entryAt repoA2 hA1).state ∧
    ∃ c : StoredCommit,
      lookupKey c.hash (repoA2.revert 3 hA1).2.commits = some c ∧
      c.action_type = "rollback" ∧
      c.parent_hashes = commitParents repoA2 ∧
      (∀ p, repoA2.resolveHead = some p → p ≠ "" → c.parent_hashes = [p]) ∧
      c.state.memory = (entryAt repoA2 hA1).state.memory ∧
      c.state.world_state =
        (match (entryAt repoA2 hA1).state.world_state with
         | Json.null => Json.obj []
         | w => w) ∧
      c.state.cost = (entryAt repoA2 hA1).state.cost ∧
      c.state.metadata = (entryAt repoA2 hA1).state.metadata ∧
      c.state.timestamp = 3 ∧
      (∀ k, k ≠ c.hash →
        lookupKey k (repoA2.revert 3 hA1).2.commits = lookupKey k repoA2.commits) ∧
      (∀ b, repoA2.currentBranch ≠ some b →
        lookupKey b (repoA2.revert 3 hA1).2.branches = lookupKey b repoA2.branches) ∧
      (∀ b, repoA2.currentBranch = some b →
        lookupKey b (repoA2.revert 3 hA1).2.branches = some c.hash) :=
  @revert_spec repoA2 3 hA1 (entryAt repoA2 hA1) rfl

/-- C9 (amended): `checkout(target)` resolves the target first as a branch
name, then as a commit hash.  An existing branch whose tip commit is stored
attaches HEAD and returns the tip's state, leaving commits and branches
untouched; an existing branch whose tip is missing from the store still
attaches HEAD (the mutation precedes the throw) and then fails with
`Object not found`; a stored commit hash detaches HEAD at it and returns
its state; any other target fails with `Ref not found` and leaves the
repository — HEAD included — unchanged. -/
theorem checkout_resolution_spec (r : PureTsRepository) (target : String) :
    (∀ h e, lookupKey target r.branches = some h → lookupKey h r.commits = some e →
      (r.checkout target).1 = .ok e.state ∧
      (r.checkout target).2.currentBranch = some target ∧
      (r.checkout target).2.detachedHash = none ∧
      (r.checkout target).2.commits = r.commits ∧
      (r.checkout target).2.branches = r.branches) ∧
    (∀ h, lookupKey target r.branches = some h → lookupKey h r.commits = none →
      (r.checkout target).1 = .error ("Object not found: " ++ h) ∧
      (r.checkout target).2.currentBranch = some target ∧
      (r.checkout target).2.detachedHash = none) ∧
    (∀ e, lookupKey target r.branches = none → lookupKey target r.commits = some e →
      (r.checkout target).1 = .ok e.state ∧
      (r.checkout target).2.currentBranch = none ∧
      (r.checkout target).2.detachedHash = some target ∧
      (r.checkout target).2.commits = r.commits ∧
      (r.checkout target).2.branches = r.branches) ∧
    (lookupKey target r.branches = none → lookupKey target r.commits = none →
      (r.checkout target).1 = .error ("Ref not found: " ++ target) ∧
      (r.checkout target).2 = r) := by
  refine ⟨?_, ?_, ?_, ?_⟩
  · intro h e hbr hc
    unfold PureTsRepository.checkout
    simp [hbr, hc]
  · intro h hbr hc
    unfold PureTsRepository.checkout
    simp [hbr, hc]
  · intro e hbr hc
    unfold PureTsRepository.checkout
    simp [hbr, hc]
  · intro hbr hc
    unfold PureTsRepository.checkout
    simp [hbr, hc]

/-- Scenario: a dangling branch `dang` pointing at the bogus string
`"zzzz"`, created through `branch`'s unvalidated `from` argument. -/
def repoA2d : PureTsRepository := (repoA2.branch "dang" (some "zzzz")).2

/-- C9 counterexample: `dang` is an existing branch, so — per the claim —
checking it out should attach HEAD and return the state at its tip; instead
the call returns no state (it fails with `Object not found: zzzz`), and
HEAD has nevertheless been attached to `dang` (it was `main` before). -/
theorem checkout_branch_state_counterexample :
    lookupKey "dang" repoA2d.branches = some "zzzz" ∧
    repoA2d.currentBranch = some "main" ∧
    (repoA2d.checkout "dang").1 = .error "Object not found: zzzz" ∧
    (repoA2d.checkout "dang").2.currentBranch = some "dang" :=
  ⟨rfl, rfl, rfl, rfl⟩

/-- Witness for C9: all four resolution clauses applied at concrete
targets of the scenario repository — the branch `main` (attach + state),
the dangling branch `dang` (attach + failure), the raw hash `hA1` (detach +
state), and an unknown name (failure, repository unchanged). -/
theorem checkout_resolution_spec_witness :
    ((repoA2.checkout "main").1 = .ok (entryAt repoA2 hA2).state ∧
      (repoA2.checkout "main").2.currentBranch = some "main" ∧
      (repoA2.checkout "main").2.detachedHash = none ∧
      (repoA2.checkout "main").2.commits = repoA2.commits ∧
      (repoA2.checkout "main").2.branches = repoA2.branches) ∧
    ((repoA2d.checkout "dang").1 = .error ("Object not found: " ++ "zzzz") ∧
      (repoA2d.checkout "dang").2.currentBranch = some "dang" ∧
      (repoA2d.checkout "dang").2.detachedHash = none) ∧
    ((repoA2.checkout hA1).1 = .ok (entryAt repoA2 hA1).state ∧
      (repoA2.checkout hA1).2.currentBranch = none ∧
      (repoA2.checkout hA1).2.detachedHash = some hA1 ∧
      (repoA2.checkout hA1).2.commits = repoA2.commits ∧
      (repoA2.checkout hA1).2.branches = repoA2.branches) ∧
    ((repoA2.checkout "nope").1 = .error ("Ref not found: " ++ "nope") ∧
      (repoA2.checkout "nope").2 = repoA2) :=
  ⟨(checkout_resolution_spec repoA2 "main").1 hA2 (entryAt repoA2 hA2) rfl rfl,
   (checkout_resolution_spec repoA2d "dang").2.1 "zzzz" rfl rfl,
   (checkout_resolution_spec repoA2 hA1).2.2.1 (entryAt repoA2 hA1) rfl rfl,
   (checkout_resolution_spec repoA2 "nope").2.2.2 rfl rfl⟩

/-- The commits map is keyed by the stored commits' own hashes — an
invariant of every repository built through `commit` (which always stores
under `c.hash`), checked here as a boolean over the map. -/
def wellKeyed (commits : List (String × StoredCommit)) : Bool :=
  commits.all (fun p => p.2.hash == p.1)

theorem wellKeyed_lookup {commits : List (String × StoredCommit)}
    (hw : wellKeyed commits = true) {k : String} {c : StoredCommit}
    (h : lookupKey k commits = some c) : c.hash = k := by
  induction commits with
  | nil => simp [lookupKey] at h
  | cons p tl ih =>
    obtain ⟨k1, c1⟩ := p
    rw [wellKeyed, List.all_cons, Bool.and_eq_true] at hw
    rw [lookupKey_cons] at h
    by_cases hk : k = k1
    · rw [if_pos hk] at h
      cases h
      rw [hk]
      exact eq_of_beq hw.1
    · rw [if_neg hk] at h
      exact ih hw.2 h

theorem bfsLog_length_le (commits : List (String × StoredCommit)) (lim : Nat) :
    ∀ (fuel : Nat) (queue visited : List String) (result : List StoredCommit),
      result.length ≤ lim →
      (bfsLog commits lim fuel queue visited result).length ≤ lim := by
  intro fuel
  induction fuel with
  | zero =>
    intro q v res h
    simpa [bfsLog] using h
  | succ fuel ih =>
    intro q v res h
    match q with
    | [] => simpa [bfsLog] using h
    | hd :: rest =>
      rw [bfsLog]
      by_cases hlim : lim ≤ res.length
      · rw [if_pos hlim]
        exact h
      · rw [if_neg hlim]
        by_cases hv : hd ∈ v
        · rw [if_pos hv]
          exact ih rest v res h
        · rw [if_neg hv]
          cases hlk : lookupKey hd commits with
          | none => exact ih rest (hd :: v) res h
          | some entry =>
            refine ih _ (hd :: v) (res ++ [entry]) ?_
            rw [List.length_append, List.length_singleton]
            omega

theorem bfsLog_nodup (commits : List (String × StoredCommit)) (lim : Nat)
    (hw : wellKeyed commits = true) :
    ∀ (fuel : Nat) (queue visited : List String) (result : List StoredCommit),
      (∀ e ∈ result, e.hash ∈ visited) →
      (result.map (fun c => c.hash)).Nodup →
      ((bfsLog commits lim fuel queue visited result).map (fun c => c.hash)).Nodup := by
  intro fuel
  induction fuel with
  | zero =>
    intro q v res _ hnd
    simpa [bfsLog] using hnd
  | succ fuel ih =>
    intro q v res hsub hnd
    match q with
    | [] => simpa [bfsLog] using hnd
    | hd :: rest =>
      rw [bfsLog]
      by_cases hlim : lim ≤ res.length
      · rw [if_pos hlim]
        exact hnd
      · rw [if_neg hlim]
        by_cases hv : hd ∈ v
        · rw [if_pos hv]
          exact ih rest v res hsub hnd
        · rw [if_neg hv]
          cases hlk : lookupKey hd commits with
          | none =>
            refine ih rest (hd :: v) res ?_ hnd
            intro e he
            exact List.mem_cons_of_mem hd (hsub e he)
          | some entry =>
            refine ih _ (hd :: v) (res ++ [entry]) ?_ ?_
            · intro e he
              rcases List.mem_append.mp he with he | he
              · exact List.mem_cons_of_mem hd (hsub e he)
              · rw [List.mem_singleton.mp he, wellKeyed_lookup hw hlk]
                exact List.mem_cons_self hd v
            · rw [List.map_append, List.map_singleton]
              apply List.Nodup.append hnd (List.nodup_singleton _)
              intro x hx hx'
              rw [List.mem_singleton.mp hx'] at hx
              rw [wellKeyed_lookup hw hlk] at hx
              rcases List.mem_map.mp hx with ⟨e, he, hehash⟩
              exact hv (hehash ▸ hsub e he)

theorem insertByTsDesc_perm (c : StoredCommit) (l : List StoredCommit) :
    List.Perm (insertByTsDesc c l) (c :: l) := by
  induction l with
  | nil => exact List.Perm.refl _
  | cons x xs ih =>
    rw [insertByTsDesc]
    by_cases h : c.timestamp < x.timestamp
    · rw [if_pos h]
      exact (ih.cons x).trans (List.Perm.swap c x xs)
    · rw [if_neg h]

theorem sortByTsDesc_perm (l : List StoredCommit) : List.Perm (sortByTsDesc l) l := by
  induction l with
  | nil => exact List.Perm.refl _
  | cons x xs ih =>
    rw [sortByTsDesc]
    exact (insertByTsDesc_perm x _).trans (ih.cons x)

theorem insertByTsDesc_sorted (c : StoredCommit) (l : List StoredCommit)
    (h : l.Pairwise (fun a b => b.timestamp ≤ a.timestamp)) :
    (insertByTsDesc c l).Pairwise (fun a b => b.timestamp ≤ a.timestamp) := by
  induction l with
  | nil => simp [insertByTsDesc]
  | cons x xs ih =>
    rcases List.pairwise_cons.mp h with ⟨hx, hxs⟩
    rw [insertByTsDesc]
    by_cases hc : c.timestamp < x.timestamp
    · rw [if_pos hc]
      refine List.pairwise_cons.mpr ⟨?_, ih hxs⟩
      intro y hy
      rcases List.mem_cons.mp ((insertByTsDesc_perm c xs).mem_iff.mp hy) with rfl | hmem
      · omega
      · exact hx y hmem
    · rw [if_neg hc]
      refine List.pairwise_cons.mpr ⟨?_, h⟩
      intro y hy
      rcases List.mem_cons.mp hy with rfl | hmem
      · omega
      · have := hx y hmem
        omega

theorem sortByTsDesc_sorted (l : List StoredCommit) :
    (sortByTsDesc l).Pairwise (fun a b => b.timestamp ≤ a.timestamp) := by
  induction l with
  | nil => simp [sortByTsDesc]
  | cons x xs ih =>
    rw [sortByTsDesc]
    exact insertByTsDesc_sorted x _ ih

/-- C8: `log(branch?, limit?)` BFS-traverses parent links from the given
branch's tip (HEAD when no branch is given) visiting each commit at most
once — on a well-keyed store the returned commits have pairwise distinct
hashes — collects at most `limit ?? 50` commits, and returns them sorted
descending by timestamp. -/
theorem log_bounded_unique_sorted (r : PureTsRepository) (branch : Option String)
    (limit : Option Nat) (hw : wellKeyed r.commits = true) :
    (r.log branch limit).length ≤ limit.getD 50 ∧
    ((r.log branch limit).map (fun c => c.hash)).Nodup ∧
    (r.log branch limit).Pairwise (fun a b => b.timestamp ≤ a.timestamp) := by
  unfold PureTsRepository.log
  cases hst : (match branch with
    | some b => lookupKey b r.branches
    | none => r.resolveHead) with
  | none => simp
  | some s =>
    by_cases hs : s = ""
    · simp [hs]
    · simp only [if_neg hs]
      have hperm :=
        sortByTsDesc_perm (bfsLog r.commits (limit.getD 50)
          (1 + r.commits.length + (r.commits.map (fun p => p.2.parent_hashes.length)).sum)
          [s] [] [])
      refine ⟨?_, ?_, sortByTsDesc_sorted _⟩
      · rw [hperm.length_eq]
        exact bfsLog_length_le r.commits (limit.getD 50) _ [s] [] [] (by simp)
      · refine (hperm.map (fun c => c.hash)).nodup_iff.mpr ?_
        exact bfsLog_nodup r.commits (limit.getD 50) hw _ [s] [] [] (by simp) (by simp)

/-- Witness for C8: the log bounds at the concrete two-commit repository,
whose commits map is well-keyed. -/
theorem log_bounded_unique_sorted_witness :
    (repoA2.log none none).length ≤ (none : Option Nat).getD 50 ∧
    ((repoA2.log none none).map (fun c => c.hash)).Nodup ∧
    (repoA2.log none none).Pairwise (fun a b => b.timestamp ≤ a.timestamp) :=
  log_bounded_unique_sorted repoA2 none none (by rfl)
